import Mathlib

/-!
Shallow embedding of the `opendart_rag_report` crawling modules
(`src/crawling/opendart_parse.py`, `src/crawling/opendart_ingest.py`)
and proofs about them.

Strings are modelled as Lean `String` / `List Char`; Python's code-point
string comparison, `startswith`, substring `in`, `str.lower` (ASCII range,
which covers every cased character these functions compare) and regex
uses are translated into executable Lean functions below.
-/

/-- Python `p` is a prefix of `s` (char lists), as in `str.startswith`. -/
def startsWithL : List Char → List Char → Bool
  | _, [] => true
  | [], _ :: _ => false
  | c :: cs, p :: ps => c = p && startsWithL cs ps

/-- Python substring test `p in s` on char lists. -/
def hasSubL : List Char → List Char → Bool
  | s, p =>
    startsWithL s p ||
      match s with
      | [] => false
      | _ :: cs => hasSubL cs p

/-- ASCII lowercasing of a char list, modelling `str.lower` on the
ASCII range (non-ASCII characters, e.g. Korean, are unchanged by
`str.lower` as well). -/
def lowerL (s : List Char) : List Char := s.map Char.toLower

/-- Python `suf` is a suffix of `s`. -/
def endsWithL (s suf : List Char) : Bool := startsWithL s.reverse suf.reverse

/-- Python code-point lexicographic `a < b` on strings (char lists). -/
def strLtL : List Char → List Char → Bool
  | [], [] => false
  | [], _ :: _ => true
  | _ :: _, [] => false
  | a :: as, b :: bs =>
    if a.toNat < b.toNat then true
    else if b.toNat < a.toNat then false
    else strLtL as bs

/-- Python `a > b` on strings: `b` is lexicographically less than `a`. -/
def strGt (a b : String) : Bool := strLtL b.data a.data

/-- Test for the regex `re.search(r"\.(html?|xml)$", n, re.I)` used by
every tier of `choose_main_entry`: the lowercased name ends in
`.html`, `.htm` or `.xml`. -/
def hasMarkupExt (n : String) : Bool :=
  let l := lowerL n.data
  endsWithL l ".html".data || endsWithL l ".htm".data || endsWithL l ".xml".data

/-- The characters after the last `.` of a char list, `none` when no `.`
occurs; models where `re.search(r"\.([a-z0-9]+)$", ...)` can match. -/
def afterLastDot : List Char → Option (List Char)
  | [] => none
  | c :: cs =>
    match afterLastDot cs with
    | some r => some r
    | none => if c = '.' then some cs else none

/-- Lowercase-alphanumeric char, the character class `[a-z0-9]`. -/
def isLowAlnum (c : Char) : Bool :=
  ('a' ≤ c && c ≤ 'z') || ('0' ≤ c && c ≤ '9')

/-- The extension `re.search(r"\.([a-z0-9]+)$", n.lower())` extracts from
a name: the non-empty all-`[a-z0-9]` run after the last dot of the
lowercased name, else the empty extension. -/
def extOf (n : String) : List Char :=
  match afterLastDot (lowerL n.data) with
  | some r => if r ≠ [] && r.all isLowAlnum then r else []
  | none => []

/-- Extension priority of `choose_main_entry.rank`: index in
`pri_ext = ["html", "htm", "xml"]`, `999` when not listed. -/
def rank (n : String) : Nat :=
  if extOf n = "html".data then 0
  else if extOf n = "htm".data then 1
  else if extOf n = "xml".data then 2
  else 999

/-- Stable insertion of `a` into `l` by key `k`, auxiliary to `isortBy`. -/
def insertBy (k : String → Nat) (a : String) : List String → List String
  | [] => [a]
  | b :: bs => if k a ≤ k b then a :: b :: bs else b :: insertBy k a bs

/-- Stable sort by key `k`, modelling Python `sorted(cands, key=rank)`. -/
def isortBy (k : String → Nat) : List String → List String
  | [] => []
  | a :: as => insertBy k a (isortBy k as)

/-- Tier 1 of `choose_main_entry`: names starting (case-insensitively)
with the receipt number and carrying a markup extension. -/
def tierOne (names : List String) (rcept_no : String) : List String :=
  names.filter (fun n => startsWithL (lowerL n.data) (lowerL rcept_no.data) && hasMarkupExt n)

/-- Tier 2 of `choose_main_entry`: names containing `사업보고서` or `본문`
and carrying a markup extension. -/
def tierTwo (names : List String) : List String :=
  names.filter (fun n => (hasSubL n.data "사업보고서".data || hasSubL n.data "본문".data) && hasMarkupExt n)

/-- Tier 3 of `choose_main_entry`: any name with a markup extension. -/
def tierThree (names : List String) : List String :=
  names.filter hasMarkupExt

/-- Embedding of `choose_main_entry(names, rcept_no)` from
`src/crawling/opendart_parse.py`: three-tier candidate search, then
`sorted(cands, key=rank)[0]`, `None` when no candidate. -/
def choose_main_entry (names : List String) (rcept_no : String) : Option String :=
  let cands := tierOne names rcept_no
  let cands := if cands.isEmpty then tierTwo names else cands
  let cands := if cands.isEmpty then tierThree names else cands
  if cands.isEmpty then none
  else (isortBy rank cands).head?

/-- The candidate list of the winning tier, `none` when every tier is
empty; spelled from the spec's tiered description for comparison with
`choose_main_entry`. -/
def winningTier (names : List String) (rcept_no : String) : Option (List String) :=
  if tierOne names rcept_no ≠ [] then some (tierOne names rcept_no)
  else if tierTwo names ≠ [] then some (tierTwo names)
  else if tierThree names ≠ [] then some (tierThree names)
  else none

/-- The first element of the list attaining the minimal key: what the
spec's "stable sort by extension priority, return the first" denotes. -/
def firstMinBy (k : String → Nat) : List String → Option String
  | [] => none
  | a :: as =>
    match firstMinBy k as with
    | none => some a
    | some b => if k a ≤ k b then some a else some b

theorem firstMinBy_ne_none (k : String → Nat) (x : String) (xs : List String) :
    firstMinBy k (x :: xs) ≠ none := by
  cases h : firstMinBy k xs with
  | none => simp [firstMinBy, h]
  | some b =>
    simp only [firstMinBy, h]
    split <;> simp

theorem firstMinBy_mem (k : String → Nat) :
    ∀ l a, firstMinBy k l = some a → a ∈ l := by
  intro l
  induction l with
  | nil => intro a h; simp [firstMinBy] at h
  | cons x xs ih =>
    intro a h
    unfold firstMinBy at h
    cases hx : firstMinBy k xs with
    | none => rw [hx] at h; simp at h; simp [h]
    | some b =>
      rw [hx] at h
      by_cases hk : k x ≤ k b
      · simp [hk] at h; simp [h]
      · simp [hk] at h
        exact List.mem_cons_of_mem x (ih a (h ▸ hx))

theorem firstMinBy_le (k : String → Nat) :
    ∀ l a, firstMinBy k l = some a → ∀ b ∈ l, k a ≤ k b := by
  intro l
  induction l with
  | nil => intro a h; simp [firstMinBy] at h
  | cons x xs ih =>
    intro a h b hb
    unfold firstMinBy at h
    cases hx : firstMinBy k xs with
    | none =>
      rw [hx] at h; simp at h
      cases xs with
      | nil => simp at hb; simp [h, hb]
      | cons y ys => exact absurd hx (firstMinBy_ne_none k y ys)
    | some c =>
      rw [hx] at h
      rcases List.mem_cons.mp hb with hb | hb
      · by_cases hk : k x ≤ k c
        · simp [hk] at h; simp [h, hb]
        · simp [hk] at h
          subst hb
          exact le_of_lt (lt_of_le_of_lt (h ▸ ih c hx c (firstMinBy_mem k xs c hx)) (Nat.lt_of_not_le hk))
      · by_cases hk : k x ≤ k c
        · simp [hk] at h
          exact le_trans (h ▸ hk) (ih c hx b hb)
        · simp [hk] at h
          exact h ▸ ih c hx b hb

theorem firstMinBy_first (k : String → Nat) :
    ∀ l a, firstMinBy k l = some a →
      ∃ i : Fin l.length, l.get i = a ∧
        ∀ j : Fin l.length, j.val < i.val → k a < k (l.get j) := by
  intro l
  induction l with
  | nil => intro a h; simp [firstMinBy] at h
  | cons x xs ih =>
    intro a h
    unfold firstMinBy at h
    cases hx : firstMinBy k xs with
    | none =>
      rw [hx] at h; simp at h
      exact ⟨⟨0, by simp⟩, by simp [h], fun j hj => absurd hj (by simp)⟩
    | some b =>
      rw [hx] at h
      by_cases hk : k x ≤ k b
      · simp [hk] at h
        exact ⟨⟨0, by simp⟩, by simp [h], fun j hj => absurd hj (by simp)⟩
      · simp [hk] at h
        obtain ⟨⟨i, hi⟩, hget, hfirst⟩ := ih a (h ▸ hx)
        refine ⟨⟨i + 1, by simpa using Nat.succ_lt_succ hi⟩, by simpa using hget, ?_⟩
        rintro ⟨j, hj⟩ hlt
        cases j with
        | zero =>
          simp only [List.get]
          have hb : k a ≤ k b := h ▸ firstMinBy_le k xs b hx b (firstMinBy_mem k xs b hx)
          exact lt_of_le_of_lt hb (Nat.lt_of_not_le hk)
        | succ j' =>
          simp only [List.get]
          exact hfirst ⟨j', Nat.lt_of_succ_lt_succ hj⟩ (Nat.lt_of_succ_lt_succ hlt)

theorem insertBy_head (k : String → Nat) (a : String) :
    ∀ l, (insertBy k a l).head? =
      some (match l with | [] => a | b :: _ => if k a ≤ k b then a else b) := by
  intro l
  cases l with
  | nil => rfl
  | cons b bs =>
    unfold insertBy
    by_cases h : k a ≤ k b <;> simp [h]

theorem isortBy_head (k : String → Nat) :
    ∀ l, (isortBy k l).head? = firstMinBy k l := by
  intro l
  induction l with
  | nil => rfl
  | cons a as ih =>
    show (insertBy k a (isortBy k as)).head? = firstMinBy k (a :: as)
    rw [insertBy_head]
    cases hs : isortBy k as with
    | nil =>
      have h2 : firstMinBy k as = none := by rw [← ih, hs]; rfl
      unfold firstMinBy
      rw [h2]
    | cons b bs =>
      have h2 : firstMinBy k as = some b := by rw [← ih, hs]; rfl
      unfold firstMinBy
      rw [h2]
      by_cases hk : k a ≤ k b <;> simp [hk]

theorem choose_main_entry_eq_winningTier (names : List String) (r : String) :
    choose_main_entry names r =
      match winningTier names r with
      | none => none
      | some c => (isortBy rank c).head? := by
  unfold choose_main_entry winningTier
  cases h1 : tierOne names r with
  | cons a as => simp [h1]
  | nil =>
    cases h2 : tierTwo names with
    | cons a as => simp [h1, h2]
    | nil =>
      cases h3 : tierThree names with
      | cons a as => simp [h1, h2, h3]
      | nil => simp [h1, h2, h3]

theorem winningTier_eq_none_iff (names : List String) (r : String) :
    winningTier names r = none ↔
      (tierOne names r = [] ∧ tierTwo names = [] ∧ tierThree names = []) := by
  unfold winningTier
  by_cases h1 : tierOne names r = [] <;>
    by_cases h2 : tierTwo names = [] <;>
      by_cases h3 : tierThree names = [] <;>
        simp [h1, h2, h3]

theorem winningTier_some_ne_nil (names : List String) (r : String) (c : List String) :
    winningTier names r = some c → c ≠ [] := by
  unfold winningTier
  by_cases h1 : tierOne names r = [] <;>
    by_cases h2 : tierTwo names = [] <;>
      by_cases h3 : tierThree names = [] <;>
        simp [h1, h2, h3] <;> intro h <;> rw [← h] at * <;> assumption

theorem isortBy_head_of_ne_nil (k : String → Nat) (c : List String) (hc : c ≠ []) :
    ∃ n, (isortBy k c).head? = some n ∧ n ∈ c := by
  cases c with
  | nil => exact absurd rfl hc
  | cons x xs =>
    rw [isortBy_head]
    cases h : firstMinBy k (x :: xs) with
    | none => exact absurd h (firstMinBy_ne_none k x xs)
    | some n => exact ⟨n, rfl, firstMinBy_mem k _ n h⟩

theorem choose_main_entry_of_some (names : List String) (r : String) (c : List String)
    (hw : winningTier names r = some c) :
    choose_main_entry names r = (isortBy rank c).head? := by
  rw [choose_main_entry_eq_winningTier, hw]

theorem choose_main_entry_of_none (names : List String) (r : String)
    (hw : winningTier names r = none) :
    choose_main_entry names r = none := by
  rw [choose_main_entry_eq_winningTier, hw]

/-- C1: `choose_main_entry` is a three-tier fallback search — every tier
restricted to markup extensions, tier 1 by receipt-id prefix, tier 2 by
the `사업보고서`/`본문` markers, tier 3 any markup name — returning `None`
exactly when no tier yields a candidate; with the three concrete
examples from the spec. -/
theorem choose_main_entry_tier_fallback :
    (∀ names r, choose_main_entry names r = none ↔
      (tierOne names r = [] ∧ tierTwo names = [] ∧ tierThree names = [])) ∧
    (∀ names r n, choose_main_entry names r = some n →
      (tierOne names r ≠ [] ∧ n ∈ tierOne names r) ∨
      (tierOne names r = [] ∧ tierTwo names ≠ [] ∧ n ∈ tierTwo names) ∨
      (tierOne names r = [] ∧ tierTwo names = [] ∧ tierThree names ≠ [] ∧
        n ∈ tierThree names)) ∧
    choose_main_entry ["A123.html", "A123.xml", "other.pdf"] "A123" = some "A123.html" ∧
    choose_main_entry ["foo_사업보고서.htm", "bar.xml"] "9999" = some "foo_사업보고서.htm" ∧
    choose_main_entry ["readme.txt"] "9999" = none := by
  refine ⟨?_, ?_, by decide, by decide, by decide⟩
  · intro names r
    rw [choose_main_entry_eq_winningTier]
    constructor
    · intro h
      cases hw : winningTier names r with
      | none => exact (winningTier_eq_none_iff names r).mp hw
      | some c =>
        rw [← choose_main_entry_eq_winningTier, choose_main_entry_of_some names r c hw] at h
        obtain ⟨n, hn, _⟩ :=
          isortBy_head_of_ne_nil rank c (winningTier_some_ne_nil names r c hw)
        rw [hn] at h
        exact absurd h (by simp)
    · intro h
      rw [(winningTier_eq_none_iff names r).mpr h]
  · intro names r n h
    rw [choose_main_entry_eq_winningTier] at h
    unfold winningTier at h
    by_cases h1 : tierOne names r = []
    · by_cases h2 : tierTwo names = []
      · by_cases h3 : tierThree names = []
        · simp [h1, h2, h3] at h
        · simp [h1, h2, h3] at h
          rw [isortBy_head] at h
          exact Or.inr (Or.inr ⟨h1, h2, h3, firstMinBy_mem rank _ n h⟩)
      · simp [h1, h2] at h
        rw [isortBy_head] at h
        exact Or.inr (Or.inl ⟨h1, h2, firstMinBy_mem rank _ n h⟩)
    · simp [h1] at h
      rw [isortBy_head] at h
      exact Or.inl ⟨h1, firstMinBy_mem rank _ n h⟩

theorem choose_main_entry_tier_fallback_witness :
    (tierOne ["A123.html", "A123.xml", "other.pdf"] "A123" ≠ [] ∧
      "A123.html" ∈ tierOne ["A123.html", "A123.xml", "other.pdf"] "A123") ∨
    (tierOne ["A123.html", "A123.xml", "other.pdf"] "A123" = [] ∧
      tierTwo ["A123.html", "A123.xml", "other.pdf"] ≠ [] ∧
      "A123.html" ∈ tierTwo ["A123.html", "A123.xml", "other.pdf"]) ∨
    (tierOne ["A123.html", "A123.xml", "other.pdf"] "A123" = [] ∧
      tierTwo ["A123.html", "A123.xml", "other.pdf"] = [] ∧
      tierThree ["A123.html", "A123.xml", "other.pdf"] ≠ [] ∧
      "A123.html" ∈ tierThree ["A123.html", "A123.xml", "other.pdf"]) :=
  choose_main_entry_tier_fallback.2.1
    ["A123.html", "A123.xml", "other.pdf"] "A123" "A123.html" (by decide)

/-- C2: among the winning tier's candidates `choose_main_entry` returns
the first name under the extension-priority ranking
(`html` before `htm` before `xml`, anything else last), i.e. the stable
minimum: a member of least rank, and every earlier candidate has
strictly larger rank. -/
theorem choose_main_entry_stable_min :
    ∀ names r cands, winningTier names r = some cands →
      choose_main_entry names r = firstMinBy rank cands ∧
      ∀ n, choose_main_entry names r = some n →
        n ∈ cands ∧ (∀ m ∈ cands, rank n ≤ rank m) ∧
        ∃ i : Fin cands.length, cands.get i = n ∧
          ∀ j : Fin cands.length, j.val < i.val → rank n < rank (cands.get j) := by
  intro names r cands hw
  have he := choose_main_entry_of_some names r cands hw
  rw [isortBy_head] at he
  refine ⟨he, ?_⟩
  intro n hn
  rw [he] at hn
  exact ⟨firstMinBy_mem rank cands n hn, firstMinBy_le rank cands n hn,
    firstMinBy_first rank cands n hn⟩

theorem choose_main_entry_stable_min_witness :
    choose_main_entry ["a.xml", "b.htm"] "zz" = firstMinBy rank ["a.xml", "b.htm"] :=
  (choose_main_entry_stable_min ["a.xml", "b.htm"] "zz" ["a.xml", "b.htm"] (by decide)).1

theorem startsWithL_iff (p : List Char) :
    ∀ s, startsWithL s p = true ↔ ∃ r, s = p ++ r := by
  induction p with
  | nil => intro s; simp [startsWithL]
  | cons x xs ih =>
    intro s
    cases s with
    | nil => simp [startsWithL]
    | cons c cs =>
      simp only [startsWithL, Bool.and_eq_true, decide_eq_true_eq, ih]
      constructor
      · rintro ⟨hc, r, hr⟩
        exact ⟨r, by simp [hc, hr]⟩
      · rintro ⟨r, hr⟩
        simp only [List.cons_append, List.cons.injEq] at hr
        exact ⟨hr.1, r, hr.2⟩

theorem hasSubL_iff (p : List Char) :
    ∀ s, hasSubL s p = true ↔ ∃ l r, s = l ++ p ++ r := by
  intro s
  induction s with
  | nil =>
    simp only [hasSubL, Bool.or_eq_true, startsWithL_iff]
    constructor
    · rintro (⟨r, hr⟩ | h)
      · exact ⟨[], r, by simp [hr]⟩
      · simp at h
    · rintro ⟨l, r, hr⟩
      have h3 := List.append_eq_nil.mp hr.symm
      have h4 := List.append_eq_nil.mp h3.1
      exact Or.inl ⟨[], by simp [h4.2]⟩
  | cons c cs ih =>
    simp only [hasSubL, Bool.or_eq_true, startsWithL_iff, ih]
    constructor
    · rintro (⟨r, hr⟩ | ⟨l, r, hr⟩)
      · exact ⟨[], r, by simp [hr]⟩
      · exact ⟨c :: l, r, by simp [hr]⟩
    · rintro ⟨l, r, hr⟩
      cases l with
      | nil => exact Or.inl ⟨r, by simpa using hr⟩
      | cons x xs =>
        simp only [List.cons_append, List.cons.injEq] at hr
        exact Or.inr ⟨xs, r, by simp [hr.2]⟩

/-- Embedding of `_is_business_report(report_nm)` from
`src/crawling/opendart_ingest.py`: the title contains `사업보고서` and
does not contain `정정`. -/
def _is_business_report (report_nm : String) : Bool :=
  hasSubL report_nm.data "사업보고서".data && !hasSubL report_nm.data "정정".data

/-- A report item of the OpenDART `list.json` response, with the fields
`list_latest_business_report` reads (`it.get(...)` defaults make each
one a total string). -/
structure RItem where
  report_nm : String
  rcept_dt : String
  rcept_no : String
deriving DecidableEq, Repr

/-- One page of the `list.json` endpoint: its `status` and `list` fields. -/
structure ListPage where
  status : String
  list : List RItem
deriving DecidableEq, Repr

/-- One step of the best-report tracking in `list_latest_business_report`:
replace `best` when it is unset or the new item's receipt date is
strictly greater (Python string `>`). -/
def updateBest (best : Option RItem) (it : RItem) : Option RItem :=
  match best with
  | none => some it
  | some b => if strGt it.rcept_dt b.rcept_dt then some it else some b

/-- The paging loop of `list_latest_business_report`: consume pages while
the status is `"000"`, fold the business-report items of each page into
`best`, and stop after a short page. -/
def runPages (page_count : Nat) : List ListPage → Option RItem → Option RItem
  | [], best => best
  | p :: rest, best =>
    if p.status ≠ "000" then best
    else
      let best2 := (p.list.filter (fun it => _is_business_report it.report_nm)).foldl updateBest best
      if p.list.length < page_count then best2
      else runPages page_count rest best2

/-- The `ValueError` message raised when no business report is found. -/
def notFoundMsg : String := "최근 사업보고서 없음"

/-- Embedding of `list_latest_business_report` from
`src/crawling/opendart_ingest.py`, over the sequence of pages the
listing endpoint returns (page size 100): the paging loop followed by
the `not best → ValueError` check and the `(rcept_no, best)` result. -/
def list_latest_business_report (pages : List ListPage) : Except String (String × RItem) :=
  match runPages 100 pages none with
  | none => .error notFoundMsg
  | some best => .ok (best.rcept_no, best)

/-- The items of the pages the loop actually consumes: a page with a
non-`"000"` status stops consumption before its items, and a short page
is the last one consumed. -/
def consumedItems (page_count : Nat) : List ListPage → List RItem
  | [] => []
  | p :: rest =>
    if p.status ≠ "000" then []
    else p.list ++ (if p.list.length < page_count then [] else consumedItems page_count rest)

/-- The consumed items that pass the business-report filter. -/
def qualifyingItems (page_count : Nat) (pages : List ListPage) : List RItem :=
  (consumedItems page_count pages).filter (fun it => _is_business_report it.report_nm)

theorem charEq_of_toNat_eq (a b : Char) (h : a.toNat = b.toNat) : a = b :=
  Char.ext (UInt32.ext h)

theorem strLtL_irrefl : ∀ a, strLtL a a = false := by
  intro a
  induction a with
  | nil => rfl
  | cons x xs ih => simp [strLtL, ih]

theorem strLtL_trans : ∀ a b c, strLtL a b = true → strLtL b c = true → strLtL a c = true := by
  intro a
  induction a with
  | nil =>
    intro b c hab hbc
    cases b with
    | nil => simp [strLtL] at hab
    | cons y ys =>
      cases c with
      | nil => simp [strLtL] at hbc
      | cons z zs => simp [strLtL]
  | cons x xs ih =>
    intro b c hab hbc
    cases b with
    | nil => simp [strLtL] at hab
    | cons y ys =>
      cases c with
      | nil => simp [strLtL] at hbc
      | cons z zs =>
        simp only [strLtL] at hab hbc ⊢
        by_cases h1 : x.toNat < y.toNat
        · by_cases h2 : y.toNat < z.toNat
          · simp [show x.toNat < z.toNat by omega]
          · by_cases h4 : z.toNat < y.toNat
            · simp [h2, h4] at hbc
            · simp [show x.toNat < z.toNat by omega]
        · by_cases h3 : y.toNat < x.toNat
          · simp [h1, h3] at hab
          · simp only [h1, h3, if_false] at hab
            by_cases h2 : y.toNat < z.toNat
            · simp [show x.toNat < z.toNat by omega]
            · by_cases h4 : z.toNat < y.toNat
              · simp [h2, h4] at hbc
              · simp only [h2, h4, if_false] at hbc
                have hxz : ¬ x.toNat < z.toNat := by omega
                have hzx : ¬ z.toNat < x.toNat := by omega
                simp only [hxz, hzx, if_false]
                exact ih ys zs hab hbc

theorem strLtL_total : ∀ a b, strLtL a b = true ∨ strLtL b a = true ∨ a = b := by
  intro a
  induction a with
  | nil =>
    intro b
    cases b with
    | nil => exact Or.inr (Or.inr rfl)
    | cons y ys => exact Or.inl (by simp [strLtL])
  | cons x xs ih =>
    intro b
    cases b with
    | nil => exact Or.inr (Or.inl (by simp [strLtL]))
    | cons y ys =>
      by_cases h1 : x.toNat < y.toNat
      · exact Or.inl (by simp [strLtL, h1])
      · by_cases h2 : y.toNat < x.toNat
        · exact Or.inr (Or.inl (by simp [strLtL, h2]))
        · have hxy : x = y := charEq_of_toNat_eq x y (by omega)
          rcases ih ys with h | h | h
          · exact Or.inl (by simp [strLtL, h1, h2, h])
          · exact Or.inr (Or.inl (by simp [strLtL, h1, h2, h]))
          · exact Or.inr (Or.inr (by rw [hxy, h]))

theorem updateBest_some (b it : RItem) :
    updateBest (some b) it = some (if strGt it.rcept_dt b.rcept_dt then it else b) := by
  by_cases h : strGt it.rcept_dt b.rcept_dt = true <;> simp [updateBest, h]

theorem foldl_updateBest_some :
    ∀ (l : List RItem) (b : RItem), ∃ c, l.foldl updateBest (some b) = some c := by
  intro l
  induction l with
  | nil => exact fun b => ⟨b, rfl⟩
  | cons it l ih =>
    intro b
    show ∃ c, l.foldl updateBest (updateBest (some b) it) = some c
    rw [updateBest_some]
    exact ih _


theorem foldl_updateBest_spec :
    ∀ (l : List RItem) (b : Option RItem) (r : RItem),
      l.foldl updateBest b = some r →
      (b = some r ∨ r ∈ l) ∧
      (∀ it ∈ l, strGt it.rcept_dt r.rcept_dt = false) ∧
      (∀ b0, b = some b0 → strGt b0.rcept_dt r.rcept_dt = false) := by
  intro l
  induction l with
  | nil =>
    intro b r h
    simp only [List.foldl_nil] at h
    refine ⟨Or.inl h, by simp, ?_⟩
    intro b0 hb
    rw [h] at hb
    cases hb
    exact strLtL_irrefl _
  | cons it l ih =>
    intro b r h
    simp only [List.foldl_cons] at h
    obtain ⟨H1, H2, H3⟩ := ih (updateBest b it) r h
    cases b with
    | none =>
      have hu : updateBest none it = some it := rfl
      have hit : strGt it.rcept_dt r.rcept_dt = false := H3 it hu
      refine ⟨?_, ?_, by simp⟩
      · rcases H1 with H1 | H1
        · rw [hu] at H1
          cases H1
          exact Or.inr (List.mem_cons_self _ _)
        · exact Or.inr (List.mem_cons_of_mem _ H1)
      · intro x hx
        rcases List.mem_cons.mp hx with hx | hx
        · exact hx ▸ hit
        · exact H2 x hx
    | some b0 =>
      by_cases hg : strGt it.rcept_dt b0.rcept_dt = true
      · have hu : updateBest (some b0) it = some it := by
          rw [updateBest_some, if_pos hg]
        have hit : strGt it.rcept_dt r.rcept_dt = false := H3 it hu
        have hb0r : strGt b0.rcept_dt r.rcept_dt = false := by
          cases hx : strLtL r.rcept_dt.data b0.rcept_dt.data with
          | false => exact hx
          | true =>
            have htr := strLtL_trans _ _ _ hx hg
            exact absurd htr (by simp [show strLtL r.rcept_dt.data it.rcept_dt.data = false from hit])
        refine ⟨?_, ?_, ?_⟩
        · rcases H1 with H1 | H1
          · rw [hu] at H1
            cases H1
            exact Or.inr (List.mem_cons_self _ _)
          · exact Or.inr (List.mem_cons_of_mem _ H1)
        · intro x hx
          rcases List.mem_cons.mp hx with hx | hx
          · exact hx ▸ hit
          · exact H2 x hx
        · intro b1 hb1
          cases hb1
          exact hb0r
      · have hgf : strGt it.rcept_dt b0.rcept_dt = false := by
          cases hx : strGt it.rcept_dt b0.rcept_dt with
          | false => rfl
          | true => exact absurd hx hg
        have hu : updateBest (some b0) it = some b0 := by
          rw [updateBest_some, if_neg hg]
        have hb0r : strGt b0.rcept_dt r.rcept_dt = false := H3 b0 hu
        have hit : strGt it.rcept_dt r.rcept_dt = false := by
          cases hx : strLtL r.rcept_dt.data it.rcept_dt.data with
          | false => exact hx
          | true =>
            rcases strLtL_total it.rcept_dt.data b0.rcept_dt.data with ht | ht | ht
            · have htr := strLtL_trans _ _ _ hx ht
              exact absurd htr (by simp [show strLtL r.rcept_dt.data b0.rcept_dt.data = false from hb0r])
            · exact absurd ht (by simp [show strLtL b0.rcept_dt.data it.rcept_dt.data = false from hgf])
            · rw [ht] at hx
              exact absurd hx (by simp [show strLtL r.rcept_dt.data b0.rcept_dt.data = false from hb0r])
        refine ⟨?_, ?_, ?_⟩
        · rcases H1 with H1 | H1
          · rw [hu] at H1
            exact Or.inl H1
          · exact Or.inr (List.mem_cons_of_mem _ H1)
        · intro x hx
          rcases List.mem_cons.mp hx with hx | hx
          · exact hx ▸ hit
          · exact H2 x hx
        · intro b1 hb1
          cases hb1
          exact hb0r

theorem runPages_eq_foldl (pc : Nat) :
    ∀ (pages : List ListPage) (b : Option RItem),
      runPages pc pages b =
        ((consumedItems pc pages).filter
          (fun it => _is_business_report it.report_nm)).foldl updateBest b := by
  intro pages
  induction pages with
  | nil => intro b; rfl
  | cons p rest ih =>
    intro b
    unfold runPages consumedItems
    by_cases hs : p.status = "000"
    · by_cases hl : p.list.length < pc
      · simp [hs, hl, List.filter_append]
      · simp [hs, hl, List.filter_append, List.foldl_append, ih]
    · simp [hs]

theorem list_latest_error_iff (pages : List ListPage) :
    list_latest_business_report pages = .error notFoundMsg ↔
      qualifyingItems 100 pages = [] := by
  unfold list_latest_business_report qualifyingItems
  rw [runPages_eq_foldl]
  cases hq : (consumedItems 100 pages).filter (fun it => _is_business_report it.report_nm) with
  | nil => simp
  | cons x xs =>
    obtain ⟨c, hc⟩ := foldl_updateBest_some xs x
    have : (x :: xs).foldl updateBest none = some c := by
      simp only [List.foldl_cons]
      exact hc
    simp [this]

/-- C4: `_is_business_report(title)` is true iff the title contains the
substring `사업보고서` and does not contain the substring `정정`, with the
spec's four literal cases. -/
theorem is_business_report_characterization :
    (∀ t : String, _is_business_report t = true ↔
      ((∃ l r, t.data = l ++ "사업보고서".data ++ r) ∧
        ¬ ∃ l r, t.data = l ++ "정정".data ++ r)) ∧
    _is_business_report "사업보고서" = true ∧
    _is_business_report "사업보고서정정" = false ∧
    _is_business_report "정정사업보고서" = false ∧
    _is_business_report "분기보고서" = false := by
  refine ⟨?_, by decide, by decide, by decide, by decide⟩
  intro t
  unfold _is_business_report
  rw [Bool.and_eq_true, Bool.not_eq_true', ← Bool.not_eq_true (hasSubL t.data "정정".data)]
  rw [hasSubL_iff, hasSubL_iff]

/-- C3: over any page sequence, `list_latest_business_report` returns at
most one best item — a qualifying item of the consumed pages whose
`rcept_dt` is lexicographically greatest — together with its receipt
number, and raises the not-found `ValueError` exactly when no
qualifying item exists in the consumed pages. -/
theorem list_latest_business_report_best :
    ∀ pages : List ListPage,
      (∀ no it, list_latest_business_report pages = .ok (no, it) →
        no = it.rcept_no ∧ it ∈ qualifyingItems 100 pages ∧
        ∀ it' ∈ qualifyingItems 100 pages,
          strLtL it'.rcept_dt.data it.rcept_dt.data = true ∨
            it'.rcept_dt.data = it.rcept_dt.data) ∧
      (list_latest_business_report pages = .error notFoundMsg ↔
        qualifyingItems 100 pages = []) := by
  intro pages
  refine ⟨?_, list_latest_error_iff pages⟩
  intro no it h
  unfold list_latest_business_report at h
  cases hr : runPages 100 pages none with
  | none => rw [hr] at h; exact absurd h (by simp)
  | some best =>
    rw [hr] at h
    simp only [Except.ok.injEq, Prod.mk.injEq] at h
    obtain ⟨hno, hbi⟩ := h
    rw [← hbi]
    rw [runPages_eq_foldl] at hr
    obtain ⟨H1, H2, _⟩ := foldl_updateBest_spec _ none best hr
    have hmem : best ∈ qualifyingItems 100 pages := by
      rcases H1 with H1 | H1
      · exact absurd H1 (by simp)
      · exact H1
    refine ⟨hno.symm, hmem, ?_⟩
    intro it' hit'
    have hng : strGt it'.rcept_dt best.rcept_dt = false := H2 it' hit'
    rcases strLtL_total it'.rcept_dt.data best.rcept_dt.data with ht | ht | ht
    · exact Or.inl ht
    · exact absurd ht (by simp [show strLtL best.rcept_dt.data it'.rcept_dt.data = false from hng])
    · exact Or.inr ht

theorem list_latest_business_report_best_witness :
    "R2" = (RItem.mk "사업보고서" "20240301" "R2").rcept_no ∧
    RItem.mk "사업보고서" "20240301" "R2" ∈
      qualifyingItems 100
        [ListPage.mk "000"
          [RItem.mk "사업보고서" "20240101" "R1",
           RItem.mk "사업보고서" "20240301" "R2",
           RItem.mk "분기보고서" "20241231" "R3"]] ∧
    ∀ it' ∈ qualifyingItems 100
        [ListPage.mk "000"
          [RItem.mk "사업보고서" "20240101" "R1",
           RItem.mk "사업보고서" "20240301" "R2",
           RItem.mk "분기보고서" "20241231" "R3"]],
      strLtL it'.rcept_dt.data (RItem.mk "사업보고서" "20240301" "R2").rcept_dt.data = true ∨
        it'.rcept_dt.data = (RItem.mk "사업보고서" "20240301" "R2").rcept_dt.data :=
  (list_latest_business_report_best
    [ListPage.mk "000"
      [RItem.mk "사업보고서" "20240101" "R1",
       RItem.mk "사업보고서" "20240301" "R2",
       RItem.mk "분기보고서" "20241231" "R3"]]).1
    "R2" (RItem.mk "사업보고서" "20240301" "R2") (by rfl)

/-- C10: a non-`"000"` status on the very first page makes
`list_latest_business_report` raise the same not-found `ValueError` as a
genuine miss, so at the interface the two are indistinguishable. -/
theorem list_latest_bad_first_status :
    (∀ (p : ListPage) (rest : List ListPage), p.status ≠ "000" →
      list_latest_business_report (p :: rest) = .error notFoundMsg) ∧
    (∀ pages : List ListPage, qualifyingItems 100 pages = [] →
      list_latest_business_report pages = .error notFoundMsg) := by
  constructor
  · intro p rest hp
    unfold list_latest_business_report
    have : runPages 100 (p :: rest) none = none := by
      unfold runPages
      rw [if_pos hp]
    rw [this]
  · intro pages h
    exact (list_latest_error_iff pages).mpr h

theorem list_latest_bad_first_status_witness :
    list_latest_business_report
      [ListPage.mk "013" [RItem.mk "사업보고서" "20240101" "R1"]] = .error notFoundMsg :=
  list_latest_bad_first_status.1
    (ListPage.mk "013" [RItem.mk "사업보고서" "20240101" "R1"]) [] (by decide)

/-- Numeric value of a decimal digit character. -/
def dval (c : Char) : Nat := c.toNat - 48

/-- Value of a big-endian decimal digit string. -/
def digitsVal : List Char → Nat
  | [] => 0
  | c :: cs => dval c * 10 ^ cs.length + digitsVal cs

/-- The receipt-date format: exactly eight decimal digits `YYYYMMDD`. -/
def isYYYYMMDD (s : String) : Prop :=
  s.data.length = 8 ∧ ∀ c ∈ s.data, 48 ≤ c.toNat ∧ c.toNat ≤ 57

instance (s : String) : Decidable (isYYYYMMDD s) := by
  unfold isYYYYMMDD
  infer_instance

/-- Year field of a `YYYYMMDD` string. -/
def yearOf (s : String) : Nat := digitsVal (s.data.take 4)

/-- Month field of a `YYYYMMDD` string. -/
def monthOf (s : String) : Nat := digitsVal ((s.data.drop 4).take 2)

/-- Day field of a `YYYYMMDD` string. -/
def dayOf (s : String) : Nat := digitsVal (s.data.drop 6)

/-- Chronological order on `YYYYMMDD` dates: year, then month, then day. -/
def chronLt (s t : String) : Prop :=
  yearOf s < yearOf t ∨
    (yearOf s = yearOf t ∧
      (monthOf s < monthOf t ∨ (monthOf s = monthOf t ∧ dayOf s < dayOf t)))

instance (s t : String) : Decidable (chronLt s t) := by
  unfold chronLt
  infer_instance

theorem digitsVal_lt (l : List Char) (hd : ∀ c ∈ l, 48 ≤ c.toNat ∧ c.toNat ≤ 57) :
    digitsVal l < 10 ^ l.length := by
  induction l with
  | nil => simp [digitsVal]
  | cons c cs ih =>
    have hc := hd c (List.mem_cons_self _ _)
    have hcs := ih (fun x hx => hd x (List.mem_cons_of_mem _ hx))
    have hdv : dval c ≤ 9 := by unfold dval; omega
    calc dval c * 10 ^ cs.length + digitsVal cs
        < dval c * 10 ^ cs.length + 10 ^ cs.length := by omega
      _ = (dval c + 1) * 10 ^ cs.length := by ring
      _ ≤ 10 * 10 ^ cs.length := Nat.mul_le_mul_right _ (by omega)
      _ = 10 ^ (cs.length + 1) := by ring
      _ = 10 ^ (c :: cs).length := by simp

theorem baseLex (d1 d2 v1 v2 k : Nat) (hv1 : v1 < k) (hv2 : v2 < k) :
    d1 * k + v1 < d2 * k + v2 ↔ (d1 < d2 ∨ (d1 = d2 ∧ v1 < v2)) := by
  constructor
  · intro h
    by_cases hdlt : d1 < d2
    · exact Or.inl hdlt
    · rcases eq_or_lt_of_le (Nat.le_of_not_lt hdlt) with he | hl
      · refine Or.inr ⟨he.symm, ?_⟩
        rw [← he] at h
        omega
      · exfalso
        have h1 : d2 * k + k ≤ d1 * k := by
          calc d2 * k + k = (d2 + 1) * k := by ring
            _ ≤ d1 * k := Nat.mul_le_mul_right _ (by omega)
        omega
  · rintro (hd | ⟨he, hv⟩)
    · have h1 : d1 * k + k ≤ d2 * k := by
        calc d1 * k + k = (d1 + 1) * k := by ring
          _ ≤ d2 * k := Nat.mul_le_mul_right _ (by omega)
      omega
    · rw [he]
      omega

theorem strLtL_digits (l1 : List Char) :
    ∀ l2, l1.length = l2.length →
      (∀ c ∈ l1, 48 ≤ c.toNat ∧ c.toNat ≤ 57) →
      (∀ c ∈ l2, 48 ≤ c.toNat ∧ c.toNat ≤ 57) →
      (strLtL l1 l2 = true ↔ digitsVal l1 < digitsVal l2) := by
  induction l1 with
  | nil =>
    intro l2 hlen _ _
    cases l2 with
    | nil => simp [strLtL, digitsVal]
    | cons b bs => simp at hlen
  | cons a as ih =>
    intro l2 hlen hd1 hd2
    cases l2 with
    | nil => simp at hlen
    | cons b bs =>
      have hlen' : as.length = bs.length := by simpa using hlen
      have ha := hd1 a (List.mem_cons_self _ _)
      have hb := hd2 b (List.mem_cons_self _ _)
      have hva := digitsVal_lt as (fun x hx => hd1 x (List.mem_cons_of_mem _ hx))
      have hvb := digitsVal_lt bs (fun x hx => hd2 x (List.mem_cons_of_mem _ hx))
      rw [hlen'] at hva
      have hkey : digitsVal (a :: as) < digitsVal (b :: bs) ↔
          (dval a < dval b ∨ (dval a = dval b ∧ digitsVal as < digitsVal bs)) := by
        show dval a * 10 ^ as.length + digitsVal as <
            dval b * 10 ^ bs.length + digitsVal bs ↔ _
        rw [hlen']
        exact baseLex _ _ _ _ _ hva hvb
      rw [hkey]
      simp only [strLtL]
      by_cases h1 : a.toNat < b.toNat
      · simp only [h1, if_true]
        constructor
        · intro _
          exact Or.inl (by unfold dval; omega)
        · intro _
          trivial
      · by_cases h2 : b.toNat < a.toNat
        · simp only [h1, h2, if_true, if_false]
          constructor
          · intro h
            exact absurd h (by simp)
          · rintro (hd | ⟨he, _⟩)
            · exact absurd hd (by unfold dval; omega)
            · exact absurd he (by unfold dval; omega)
        · simp only [h1, h2, if_false]
          rw [ih bs hlen' (fun x hx => hd1 x (List.mem_cons_of_mem _ hx))
            (fun x hx => hd2 x (List.mem_cons_of_mem _ hx))]
          constructor
          · intro h
            exact Or.inr ⟨by unfold dval; omega, h⟩
          · rintro (hd | ⟨_, hv⟩)
            · exact absurd hd (by unfold dval; omega)
            · exact hv

theorem digitsVal_append (l1 l2 : List Char) :
    digitsVal (l1 ++ l2) = digitsVal l1 * 10 ^ l2.length + digitsVal l2 := by
  induction l1 with
  | nil => simp [digitsVal]
  | cons c cs ih =>
    show dval c * 10 ^ (cs ++ l2).length + digitsVal (cs ++ l2) = _
    rw [ih, List.length_append, pow_add]
    show _ = (dval c * 10 ^ cs.length + digitsVal cs) * 10 ^ l2.length + digitsVal l2
    ring

theorem digitsVal_split8 (l : List Char) (hl : l.length = 8) :
    digitsVal l =
      digitsVal (l.take 4) * 10 ^ 4 +
        (digitsVal ((l.drop 4).take 2) * 10 ^ 2 + digitsVal (l.drop 6)) := by
  have hdd : (l.drop 4).drop 2 = l.drop 6 := by
    rw [List.drop_drop]
  have h1 : l.take 4 ++ ((l.drop 4).take 2 ++ (l.drop 4).drop 2) = l := by
    rw [List.take_append_drop, List.take_append_drop]
  have hlen1 : ((l.drop 4).take 2 ++ (l.drop 4).drop 2).length = 4 := by
    rw [List.take_append_drop, List.length_drop, hl]
  have hlen2 : ((l.drop 4).drop 2).length = 2 := by
    rw [hdd, List.length_drop, hl]
  calc digitsVal l
      = digitsVal (l.take 4 ++ ((l.drop 4).take 2 ++ (l.drop 4).drop 2)) := by rw [h1]
    _ = digitsVal (l.take 4) * 10 ^ 4 +
          digitsVal ((l.drop 4).take 2 ++ (l.drop 4).drop 2) := by
        rw [digitsVal_append, hlen1]
    _ = _ := by rw [digitsVal_append, hlen2, hdd]

theorem strLtL_iff_chronLt (s t : String) (hs : isYYYYMMDD s) (ht : isYYYYMMDD t) :
    strLtL s.data t.data = true ↔ chronLt s t := by
  obtain ⟨hsl, hsd⟩ := hs
  obtain ⟨htl, htd⟩ := ht
  have hmidS : ∀ c ∈ (s.data.drop 4).take 2, 48 ≤ c.toNat ∧ c.toNat ≤ 57 :=
    fun c hc => hsd c (List.drop_subset 4 s.data (List.take_subset 2 _ hc))
  have hmidT : ∀ c ∈ (t.data.drop 4).take 2, 48 ≤ c.toNat ∧ c.toNat ≤ 57 :=
    fun c hc => htd c (List.drop_subset 4 t.data (List.take_subset 2 _ hc))
  have hdayS : ∀ c ∈ s.data.drop 6, 48 ≤ c.toNat ∧ c.toNat ≤ 57 :=
    fun c hc => hsd c (List.drop_subset 6 s.data hc)
  have hdayT : ∀ c ∈ t.data.drop 6, 48 ≤ c.toNat ∧ c.toNat ≤ 57 :=
    fun c hc => htd c (List.drop_subset 6 t.data hc)
  have hmS : monthOf s < 10 ^ 2 := by
    have := digitsVal_lt _ hmidS
    have hlen : ((s.data.drop 4).take 2).length = 2 := by
      rw [List.length_take, List.length_drop, hsl]
      omega
    rw [hlen] at this
    exact this
  have hmT : monthOf t < 10 ^ 2 := by
    have := digitsVal_lt _ hmidT
    have hlen : ((t.data.drop 4).take 2).length = 2 := by
      rw [List.length_take, List.length_drop, htl]
      omega
    rw [hlen] at this
    exact this
  have hdS : dayOf s < 10 ^ 2 := by
    have := digitsVal_lt _ hdayS
    have hlen : (s.data.drop 6).length = 2 := by rw [List.length_drop, hsl]
    rw [hlen] at this
    exact this
  have hdT : dayOf t < 10 ^ 2 := by
    have := digitsVal_lt _ hdayT
    have hlen : (t.data.drop 6).length = 2 := by rw [List.length_drop, htl]
    rw [hlen] at this
    exact this
  rw [strLtL_digits s.data t.data (by rw [hsl, htl]) hsd htd]
  rw [digitsVal_split8 s.data hsl, digitsVal_split8 t.data htl]
  show yearOf s * 10 ^ 4 + (monthOf s * 10 ^ 2 + dayOf s) <
      yearOf t * 10 ^ 4 + (monthOf t * 10 ^ 2 + dayOf t) ↔ chronLt s t
  have hvS : monthOf s * 10 ^ 2 + dayOf s < 10 ^ 4 := by
    have := hmS; have := hdS; omega
  have hvT : monthOf t * 10 ^ 2 + dayOf t < 10 ^ 4 := by
    have := hmT; have := hdT; omega
  rw [baseLex _ _ _ _ _ hvS hvT, baseLex _ _ _ _ _ hdS hdT]
  rfl

/-- C8: on fixed-width `YYYYMMDD` date strings, lexicographic string
order coincides with chronological order, so the best-report selection
step `it.get("rcept_dt", "") > best.get("rcept_dt", "")` picks by
maximum date. -/
theorem yyyymmdd_lex_eq_chron :
    (∀ s t : String, isYYYYMMDD s → isYYYYMMDD t →
      (strLtL s.data t.data = true ↔ chronLt s t)) ∧
    (∀ b it : RItem, isYYYYMMDD b.rcept_dt → isYYYYMMDD it.rcept_dt →
      updateBest (some b) it =
        some (if chronLt b.rcept_dt it.rcept_dt then it else b)) := by
  refine ⟨strLtL_iff_chronLt, ?_⟩
  intro b it hb hit
  rw [updateBest_some]
  by_cases hc : chronLt b.rcept_dt it.rcept_dt
  · have hg : strGt it.rcept_dt b.rcept_dt = true :=
      (strLtL_iff_chronLt b.rcept_dt it.rcept_dt hb hit).mpr hc
    rw [if_pos hg, if_pos hc]
  · have hg : strGt it.rcept_dt b.rcept_dt ≠ true := fun h =>
      hc ((strLtL_iff_chronLt b.rcept_dt it.rcept_dt hb hit).mp h)
    rw [if_neg hg, if_neg hc]

theorem yyyymmdd_lex_eq_chron_witness :
    updateBest (some (RItem.mk "사업보고서" "20230101" "A"))
        (RItem.mk "사업보고서" "20240101" "B") =
      some (if chronLt (RItem.mk "사업보고서" "20230101" "A").rcept_dt
              (RItem.mk "사업보고서" "20240101" "B").rcept_dt
            then RItem.mk "사업보고서" "20240101" "B"
            else RItem.mk "사업보고서" "20230101" "A") :=
  yyyymmdd_lex_eq_chron.2 (RItem.mk "사업보고서" "20230101" "A")
    (RItem.mk "사업보고서" "20240101" "B") (by decide) (by decide)

/-- Embedding of `_decode_kr(data)` from `src/crawling/opendart_parse.py`.
Bytes are `List Nat`; each codec parameter models `bytes.decode(enc)` —
`some s` when the codec decodes without `UnicodeDecodeError`, `none`
when it raises; `utf8ignore` models `data.decode("utf-8", "ignore")`,
which succeeds on every input. The fixed trial order cp949, euc-kr,
utf-8 and the final forced decode mirror the source loop. -/
def _decode_kr (cp949 euckr utf8 : List Nat → Option String)
    (utf8ignore : List Nat → String) (data : List Nat) : String :=
  match cp949 data with
  | some s => s
  | none =>
    match euckr data with
    | some s => s
    | none =>
      match utf8 data with
      | some s => s
      | none => utf8ignore data

/-- C7: `_decode_kr` returns the first successful decoding in the fixed
order cp949, euc-kr, utf-8, and force-decodes with ignore-errors utf-8
when all three fail — so it is total (never raises), and input decodable
only under one Korean legacy code page yields exactly that code page's
characters. -/
theorem decode_kr_fallback_chain :
    ∀ (cp949 euckr utf8 : List Nat → Option String) (utf8ignore : List Nat → String)
      (data : List Nat),
      (∀ s, cp949 data = some s →
        _decode_kr cp949 euckr utf8 utf8ignore data = s) ∧
      (∀ s, cp949 data = none → euckr data = some s →
        _decode_kr cp949 euckr utf8 utf8ignore data = s) ∧
      (∀ s, cp949 data = none → euckr data = none → utf8 data = some s →
        _decode_kr cp949 euckr utf8 utf8ignore data = s) ∧
      (cp949 data = none → euckr data = none → utf8 data = none →
        _decode_kr cp949 euckr utf8 utf8ignore data = utf8ignore data) := by
  intro cp949 euckr utf8 utf8ignore data
  refine ⟨?_, ?_, ?_, ?_⟩
  · intro s h
    unfold _decode_kr
    rw [h]
  · intro s h1 h2
    unfold _decode_kr
    rw [h1, h2]
  · intro s h1 h2 h3
    unfold _decode_kr
    rw [h1, h2, h3]
  · intro h1 h2 h3
    unfold _decode_kr
    rw [h1, h2, h3]

theorem decode_kr_fallback_chain_witness :
    _decode_kr (fun _ => none) (fun _ => some "한") (fun _ => none) (fun _ => "")
      [176, 161] = "한" :=
  ((decode_kr_fallback_chain (fun _ => none) (fun _ => some "한") (fun _ => none)
    (fun _ => "") [176, 161]).2.1) "한" rfl rfl

/-- Element node of a parsed markup tree, as in lxml: `text` is the text
before the first child and each child carries the `tail` text that
follows it; a `None` text is modelled as `""`, which contributes the
same to any concatenation. -/
inductive XTree where
  | elem (tag : String) (text : String) (children : List XTree) (tail : String)

/-- Tail text of an element. -/
def XTree.tail : XTree → String
  | .elem _ _ _ tl => tl

mutual

/-- Concatenation `"".join(root.itertext())`: the element's text, then
each child's full text followed by its tail, depth-first in document
order (the root's own tail is not part of `itertext`). -/
def itertextJoin : XTree → String
  | .elem _ t cs _ => t ++ itertextList cs

/-- Document-order text of a sibling list, each child's tail included. -/
def itertextList : List XTree → String
  | [] => ""
  | c :: cs => itertextJoin c ++ c.tail ++ itertextList cs

end

/-- Rendered text of `root.text_content()` from `lxml.html` — the same
document-order concatenation of text nodes. -/
def text_content (t : XTree) : String := itertextJoin t

/-- Lookup of `zf.read(entry_name)` in an in-memory archive modelled as
an association list of entry names to byte payloads (missing entry:
`KeyError`). -/
def zipRead (entries : List (String × List Nat)) (name : String) : Option (List Nat) :=
  match entries with
  | [] => none
  | (n, d) :: rest => if n = name then some d else zipRead rest name

/-- Embedding of `extract_text_from_zip_entry(zip_bytes, entry_name)`
from `src/crawling/opendart_parse.py`. The archive is the entry list of
the zip; `xmlParse` models `etree.fromstring(..., XMLParser(recover=True))`,
whose parse failure is `XMLSyntaxError` (the sole `except` arm);
`htmlParse` models `html.fromstring`, whose exceptions are uncaught.
Result: joined XML text nodes, or the HTML fallback's text content, or
the propagated fallback error. -/
def parseStage (xmlParse : String → Except Unit XTree)
    (htmlParse : String → Except String XTree) (txt : String) :
    Except String String :=
  match xmlParse txt with
  | .ok root => .ok (itertextJoin root)
  | .error _ =>
    match htmlParse txt with
    | .ok root => .ok (text_content root)
    | .error e => .error e

def extract_text_from_zip_entry
    (cp949 euckr utf8 : List Nat → Option String) (utf8ignore : List Nat → String)
    (xmlParse : String → Except Unit XTree)
    (htmlParse : String → Except String XTree)
    (entries : List (String × List Nat)) (entry_name : String) :
    Except String String :=
  match zipRead entries entry_name with
  | none => .error "KeyError"
  | some data =>
    parseStage xmlParse htmlParse (_decode_kr cp949 euckr utf8 utf8ignore data)

/-- C5: the two-stage parse of the decoded entry text — the XML stage's
success returns its joined text nodes, the HTML fallback runs exactly
when the XML stage raises a syntax error, and any propagated error
originates in the fallback parser. -/
theorem extract_text_two_stage :
    ∀ (cp949 euckr utf8 : List Nat → Option String) (utf8ignore : List Nat → String)
      (xmlParse : String → Except Unit XTree) (htmlParse : String → Except String XTree)
      (entries : List (String × List Nat)) (name : String) (data : List Nat),
      zipRead entries name = some data →
      (∀ root, xmlParse (_decode_kr cp949 euckr utf8 utf8ignore data) = .ok root →
        extract_text_from_zip_entry cp949 euckr utf8 utf8ignore xmlParse htmlParse
          entries name = .ok (itertextJoin root)) ∧
      (xmlParse (_decode_kr cp949 euckr utf8 utf8ignore data) = .error () →
        extract_text_from_zip_entry cp949 euckr utf8 utf8ignore xmlParse htmlParse
          entries name =
          (match htmlParse (_decode_kr cp949 euckr utf8 utf8ignore data) with
           | .ok root => .ok (text_content root)
           | .error e => .error e)) ∧
      (∀ e, extract_text_from_zip_entry cp949 euckr utf8 utf8ignore xmlParse htmlParse
          entries name = .error e →
        xmlParse (_decode_kr cp949 euckr utf8 utf8ignore data) = .error () ∧
          htmlParse (_decode_kr cp949 euckr utf8 utf8ignore data) = .error e) := by
  intro cp949 euckr utf8 utf8ignore xmlParse htmlParse entries name data hread
  have hstep : extract_text_from_zip_entry cp949 euckr utf8 utf8ignore xmlParse htmlParse
      entries name =
      parseStage xmlParse htmlParse (_decode_kr cp949 euckr utf8 utf8ignore data) := by
    unfold extract_text_from_zip_entry
    rw [hread]
  refine ⟨?_, ?_, ?_⟩
  · intro root hx
    rw [hstep]
    unfold parseStage
    rw [hx]
  · intro hx
    rw [hstep]
    unfold parseStage
    rw [hx]
  · intro e he
    rw [hstep] at he
    unfold parseStage at he
    cases hx : xmlParse (_decode_kr cp949 euckr utf8 utf8ignore data) with
    | ok root => rw [hx] at he; exact absurd he (by simp)
    | error u =>
      rw [hx] at he
      cases hh : htmlParse (_decode_kr cp949 euckr utf8 utf8ignore data) with
      | ok root => rw [hh] at he; exact absurd he (by simp)
      | error e2 =>
        rw [hh] at he
        simp only [Except.error.injEq] at he
        subst he
        cases u
        exact ⟨rfl, rfl⟩

theorem extract_text_two_stage_witness :
    extract_text_from_zip_entry (fun _ => none) (fun _ => none)
        (fun _ => some "<a>hi</a>") (fun _ => "")
        (fun _ => Except.ok (XTree.elem "a" "hi" [] ""))
        (fun _ => Except.error "fallback") [("e.xml", [60])] "e.xml" =
      Except.ok (itertextJoin (XTree.elem "a" "hi" [] "")) :=
  (extract_text_two_stage (fun _ => none) (fun _ => none) (fun _ => some "<a>hi</a>")
    (fun _ => "") (fun _ => Except.ok (XTree.elem "a" "hi" [] ""))
    (fun _ => Except.error "fallback") [("e.xml", [60])] "e.xml" [60] rfl).1
    (XTree.elem "a" "hi" [] "") rfl

/-- No markup-delimiter character occurs in the string. -/
def noAngle (s : String) : Bool := s.data.all (fun c => !(c = '<' || c = '>'))

mutual

/-- Every text and tail node of the tree is free of markup delimiters
(true of parsed markup, where text nodes contain no raw tags). -/
def tagFree : XTree → Bool
  | .elem _ t cs tl => noAngle t && tagFreeL cs && noAngle tl

/-- All trees of the list are `tagFree`. -/
def tagFreeL : List XTree → Bool
  | [] => true
  | c :: cs => tagFree c && tagFreeL cs

end

theorem noAngle_append (a b : String) : noAngle (a ++ b) = (noAngle a && noAngle b) := by
  show (a.data ++ b.data).all _ = _
  rw [List.all_append]
  rfl

theorem tagFree_tail : ∀ c : XTree, tagFree c = true → noAngle c.tail = true
  | XTree.elem _ _ _ tl => by
    intro h
    simp only [tagFree, Bool.and_eq_true] at h
    exact h.2

mutual

theorem tagFree_itertext : ∀ t : XTree, tagFree t = true → noAngle (itertextJoin t) = true
  | XTree.elem tg tx cs tl => by
    intro h
    simp only [tagFree, Bool.and_eq_true] at h
    obtain ⟨⟨h1, h2⟩, h3⟩ := h
    show noAngle (tx ++ itertextList cs) = true
    rw [noAngle_append, h1, tagFreeL_itertextList cs h2]
    rfl

theorem tagFreeL_itertextList :
    ∀ cs : List XTree, tagFreeL cs = true → noAngle (itertextList cs) = true
  | [] => fun _ => rfl
  | c :: cs => by
    intro h
    simp only [tagFreeL, Bool.and_eq_true] at h
    obtain ⟨h1, h2⟩ := h
    show noAngle (itertextJoin c ++ c.tail ++ itertextList cs) = true
    rw [noAngle_append, noAngle_append]
    rw [tagFree_itertext c h1, tagFree_tail c h1, tagFreeL_itertextList cs h2]
    rfl

end

/-- C6: when the entry's decoded bytes parse as a well-formed XML tree
`t` (the recovering parser succeeds), the result is `itertextJoin t` —
the depth-first document-order concatenation of `t`'s text nodes — and
when the text nodes are free of markup delimiters, so is the output:
no markup tags survive in the returned string. -/
theorem extract_text_xml_roundtrip :
    ∀ (cp949 euckr utf8 : List Nat → Option String) (utf8ignore : List Nat → String)
      (xmlParse : String → Except Unit XTree) (htmlParse : String → Except String XTree)
      (entries : List (String × List Nat)) (name : String) (data : List Nat) (t : XTree),
      zipRead entries name = some data →
      xmlParse (_decode_kr cp949 euckr utf8 utf8ignore data) = .ok t →
      extract_text_from_zip_entry cp949 euckr utf8 utf8ignore xmlParse htmlParse
          entries name = .ok (itertextJoin t) ∧
        (tagFree t = true → noAngle (itertextJoin t) = true) := by
  intro cp949 euckr utf8 utf8ignore xmlParse htmlParse entries name data t hread hx
  exact ⟨(extract_text_two_stage cp949 euckr utf8 utf8ignore xmlParse htmlParse
      entries name data hread).1 t hx, tagFree_itertext t⟩

theorem extract_text_xml_roundtrip_witness :
    extract_text_from_zip_entry (fun _ => none) (fun _ => none) (fun _ => some "x")
        (fun _ => "")
        (fun _ => Except.ok (XTree.elem "doc" "hello " [XTree.elem "b" "world" [] "!"] ""))
        (fun _ => Except.error "fb") [("r.xml", [120])] "r.xml" =
      Except.ok (itertextJoin (XTree.elem "doc" "hello " [XTree.elem "b" "world" [] "!"] "")) ∧
    (tagFree (XTree.elem "doc" "hello " [XTree.elem "b" "world" [] "!"] "") = true →
      noAngle (itertextJoin (XTree.elem "doc" "hello " [XTree.elem "b" "world" [] "!"] "")) =
        true) :=
  extract_text_xml_roundtrip (fun _ => none) (fun _ => none) (fun _ => some "x")
    (fun _ => "")
    (fun _ => Except.ok (XTree.elem "doc" "hello " [XTree.elem "b" "world" [] "!"] ""))
    (fun _ => Except.error "fb") [("r.xml", [120])] "r.xml" [120]
    (XTree.elem "doc" "hello " [XTree.elem "b" "world" [] "!"] "") rfl rfl

/-- Outcome of `ET.parse(corpcode_path)`: the file may be missing
(`FileNotFoundError`), unreadable or ill-formed (any other exception,
caught by the bare `except Exception` arm), or parsed into a tree. -/
inductive FileReadResult where
  | missing
  | malformed (msg : String)
  | parsed (root : XTree)

/-- Model of `Element.findtext(tag)` restricted to how
`load_corp_codes` uses it: the text of the first direct child with the
given tag, `none` when no such child exists. -/
def findtext : List XTree → String → Option String
  | [], _ => none
  | XTree.elem tg tx _ _ :: rest, tag => if tg = tag then some tx else findtext rest tag

mutual

/-- Model of `root.iter(tag)`: all elements of the subtree with the
given tag, in document order, the root included. -/
def iterTag : XTree → String → List XTree
  | XTree.elem tg tx cs tl, tag =>
    (if tg = tag then [XTree.elem tg tx cs tl] else []) ++ iterTagL cs tag

/-- `iterTag` over a sibling list. -/
def iterTagL : List XTree → String → List XTree
  | [], _ => []
  | c :: cs, tag => iterTag c tag ++ iterTagL cs tag

end

/-- Python whitespace characters recognised by `str.strip()` (ASCII). -/
def isPySpace (c : Char) : Bool :=
  c = ' ' || c = '\t' || c = '\n' || c = '\r' || c.toNat = 11 || c.toNat = 12

/-- Model of `str.strip()`: drop whitespace from both ends. -/
def pyStrip (s : String) : String :=
  String.mk (((s.data.dropWhile isPySpace).reverse.dropWhile isPySpace).reverse)

/-- One row of the corp-code table built by `load_corp_codes`. -/
structure CorpRecord where
  corp_code : String
  corp_name : String
  corp_eng_name : String
  stock_code : String
  modify_date : String
deriving DecidableEq, Repr

/-- The record `load_corp_codes` builds from one `list` element:
each field is `(corp_data.findtext(...) or '').strip()`. -/
def corpRecordOf (e : XTree) : CorpRecord :=
  match e with
  | XTree.elem _ _ cs _ =>
    { corp_code := pyStrip ((findtext cs "corp_code").getD "")
      corp_name := pyStrip ((findtext cs "corp_name").getD "")
      corp_eng_name := pyStrip ((findtext cs "corp_eng_name").getD "")
      stock_code := pyStrip ((findtext cs "stock_code").getD "")
      modify_date := pyStrip ((findtext cs "modify_date").getD "") }

/-- Embedding of `load_corp_codes(corpcode_path)` from
`src/crawling/opendart_ingest.py`, over a file system modelled as a map
from paths to read outcomes; the returned DataFrame is the list of its
records. Both `except` arms (missing file, any other failure) yield the
empty table. -/
def load_corp_codes (fs : String → FileReadResult) (corpcode_path : String) :
    List CorpRecord :=
  match fs corpcode_path with
  | .missing => []
  | .malformed _ => []
  | .parsed root => (iterTag root "list").map corpRecordOf

/-- C9: `load_corp_codes` is total over every file-read outcome — it
never raises: a missing or malformed reference file yields the empty
table, and a parsed file yields exactly the records of its `list`
elements. -/
theorem load_corp_codes_soft_fail :
    ∀ (fs : String → FileReadResult) (path : String),
      (fs path = .missing → load_corp_codes fs path = []) ∧
      (∀ m, fs path = .malformed m → load_corp_codes fs path = []) ∧
      (∀ root, fs path = .parsed root →
        load_corp_codes fs path = (iterTag root "list").map corpRecordOf) := by
  intro fs path
  refine ⟨?_, ?_, ?_⟩
  · intro h
    unfold load_corp_codes
    rw [h]
  · intro m h
    unfold load_corp_codes
    rw [h]
  · intro root h
    unfold load_corp_codes
    rw [h]

theorem load_corp_codes_soft_fail_witness :
    load_corp_codes (fun _ => FileReadResult.missing) "./data/corp_codes/CORPCODE.xml" = [] :=
  (load_corp_codes_soft_fail (fun _ => FileReadResult.missing)
    "./data/corp_codes/CORPCODE.xml").1 rfl
